import Mathlib

/-!
Verification of the contact manager (`contact_manager.py`).

The Python source is shallowly embedded: `Contact` (a validated
name/phone/email record whose equality and ordering compare lowercased
names), `ContactsCollection` (an ordered list with duplicate-suppressing
add and first-match remove, modelled as `List Contact`), `StorageManager`
(whole-file blob persistence, modelled by a `Blob` field of the manager
state) and `ContactManager` (the orchestrator operations).

Strings are handled through their character lists: `lower` models
Python's `str.lower` (ASCII case folding, which covers every string the
claims quantify over concretely), `pstrip` models `str.strip`, and
`lexLt` models Python's lexicographic `<` on strings.  Python `pickle`
is modelled by the `Blob`/`Item` inductives together with `serialize` /
`deserialize`: a blob is either absent/empty, a byte string that fails
to unpickle, a pickled Python list (whose elements are contacts or
values of some other type), or a pickled non-list value.
-/

namespace ContactMgr

/-- Model of Python `str.lower` (ASCII case folding on the character list). -/
def lower (s : String) : String := ⟨s.data.map Char.toLower⟩

/-- Strip whitespace from both ends of a character list (model of `str.strip`). -/
def stripList (cs : List Char) : List Char :=
  ((cs.dropWhile Char.isWhitespace).reverse.dropWhile Char.isWhitespace).reverse

/-- Model of Python `str.strip()`. -/
def pstrip (s : String) : String := ⟨stripList s.data⟩

/-- Lexicographic `<` on character lists (model of Python string `<`). -/
def lexLt : List Char → List Char → Bool
  | [], [] => false
  | [], _ :: _ => true
  | _ :: _, [] => false
  | a :: as, b :: bs => a < b || (a == b && lexLt as bs)

/-- A contact record: the three attributes set by `Contact.__init__`. -/
structure Contact where
  name : String
  phone : String
  email : String
deriving DecidableEq

/-- Model of `Contact.__eq__`: case-insensitive comparison of the names only. -/
def ceq (a b : Contact) : Bool := lower a.name == lower b.name

/-- Model of `Contact.__lt__`: case-insensitive lexicographic comparison of the names. -/
def clt (a b : Contact) : Bool := lexLt (lower a.name).data (lower b.name).data

/-- The test `c != '@'`, the character class `[^@]` of `Contact.EMAIL_REGEX`. -/
def notAt (c : Char) : Bool := c != '@'

/-- Scans for a decomposition `b ++ '.' :: c` with `c` nonempty
(the `\.[^@]+` tail of the email regex, with `b` allowed empty here). -/
def dotSplitTail : List Char → Bool
  | [] => false
  | x :: rest => (x == '.' && !rest.isEmpty) || dotSplitTail rest

/-- Full-string match of `EMAIL_REGEX = [^@]+@[^@]+\.[^@]+` on a character
list.  Since every bracket class excludes `'@'`, a match must place the
literal `'@'` at the first `'@'` of the input, so the matcher splits there. -/
def emailList (cs : List Char) : Bool :=
  match cs.dropWhile notAt with
  | '@' :: t =>
      !(cs.takeWhile notAt).isEmpty && t.all notAt &&
      (match t with
       | [] => false
       | _ :: r => dotSplitTail r)
  | _ => false

/-- Model of `Contact.EMAIL_REGEX.fullmatch(email)` as a Boolean on strings. -/
def emailMatch (s : String) : Bool := emailList s.data

/-- The email shape stated by the spec: one or more non-`@` characters,
then `@`, then one or more non-`@` characters, then `.`, then one or
more non-`@` characters — anchored, whole-string. -/
def EmailShape (s : String) : Prop :=
  ∃ a b c : List Char, s.data = a ++ '@' :: (b ++ '.' :: c) ∧
    a ≠ [] ∧ b ≠ [] ∧ c ≠ [] ∧ '@' ∉ a ∧ '@' ∉ b ∧ '@' ∉ c

/-- Model of `Contact.__init__`: validates the three fields in order
(`_validate_non_empty` on name and phone, `_validate_email` on email),
raising `ValueError` on the first failure. -/
def Contact.construct (name phone email : String) : Except String Contact :=
  let n := pstrip name
  if n = "" then .error "Name cannot be empty."
  else
    let p := pstrip phone
    if p = "" then .error "Phone cannot be empty."
    else
      let e := pstrip email
      if emailMatch e then .ok ⟨n, p, e⟩
      else .error "Invalid email format"

/-- Model of `Contact.to_dict`: the structural projection used for serialization. -/
def Contact.to_dict (c : Contact) : String × String × String :=
  (c.name, c.phone, c.email)

-- Sanity checks on concrete data.
example : pstrip "  Alice " = "Alice" := by decide
example : emailMatch "alice@example.com" = true := by decide
example : emailMatch "not-an-email" = false := by decide
example : emailMatch "a@b.c" = true := by decide
example : emailMatch "a@.c" = false := by decide
example : emailMatch "a@b." = false := by decide
example : emailMatch "@b.c" = false := by decide
example : emailMatch "a@b@c.d" = false := by decide
example : Contact.construct " Alice " "555-1111" " alice@example.com " =
    .ok ⟨"Alice", "555-1111", "alice@example.com"⟩ := rfl
example : Contact.construct "  " "555" "a@b.c" = .error "Name cannot be empty." := rfl
example : ceq ⟨"Alice", "1", "a@b.c"⟩ ⟨"aLICE", "2", "x@y.z"⟩ = true := by decide

/-! ## ContactsCollection -/

/-- Python `contact in self._contacts`: membership by `Contact.__eq__`. -/
def memC (c : Contact) (l : List Contact) : Bool := l.any (fun x => ceq x c)

/-- Model of `ContactsCollection._add_contact`: append unless an equal contact is
already stored (the type check on non-`Contact` values is handled by the
`Item` model of untyped inputs below). -/
def addContact (l : List Contact) (c : Contact) : List Contact :=
  if memC c l then l else l ++ [c]

/-- The three input shapes accepted by `__iadd__`/`__isub__`: a single
`Contact`, a sequence (`list`/`tuple`/`ContactsCollection`), or a dict
keyed by name whose values are merged/removed. -/
inductive MergeInput where
  | single (c : Contact)
  | many (cs : List Contact)
  | keyed (m : List (String × Contact))
deriving DecidableEq

/-- Model of `ContactsCollection._extend`: dispatch on the input shape and add each
resulting contact in order. -/
def extend (l : List Contact) : MergeInput → List Contact
  | .single c => addContact l c
  | .many cs => cs.foldl addContact l
  | .keyed m => (m.map Prod.snd).foldl addContact l

/-- Python `list.remove`: drop the first element equal (by `Contact.__eq__`)
to `c`; `none` models the `ValueError` raised when no element is equal. -/
def listRemove (l : List Contact) (c : Contact) : Option (List Contact) :=
  match l with
  | [] => none
  | x :: xs => if ceq x c then some xs else (listRemove xs c).map (x :: ·)

/-- The loop of `ContactsCollection._remove` over a sequence of contacts.
The returned flag is `false` when a `list.remove` call raised; the returned
list is the collection's state at that moment (earlier removals applied). -/
def removeMany (l : List Contact) : List Contact → List Contact × Bool
  | [] => (l, true)
  | c :: rest =>
    match listRemove l c with
    | none => (l, false)
    | some l2 => removeMany l2 rest

/-- Model of `ContactsCollection._remove`: dispatch on the input shape. -/
def removeBulk (l : List Contact) : MergeInput → List Contact × Bool
  | .single c =>
    match listRemove l c with
    | none => (l, false)
    | some l2 => (l2, true)
  | .many cs => removeMany l cs
  | .keyed m => removeMany l (m.map Prod.snd)

/-- Stable insertion into a sorted list: `c`, which precedes every element
of the list in the original order, goes in front of the first `x` that is
not strictly smaller under `Contact.__lt__`. -/
def insertSorted (c : Contact) : List Contact → List Contact
  | [] => [c]
  | x :: xs => if clt x c then x :: insertSorted c xs else c :: x :: xs

/-- Model of `ContactsCollection.sort` and `list.sort()`: a stable in-place sort by
`Contact.__lt__`, modelled by stable insertion sort. -/
def sortC (l : List Contact) : List Contact := l.foldr insertSorted []

/-- Model of `ContactsCollection.find_by_name`: all stored contacts whose name
matches `name` case-insensitively, in store order. -/
def find_by_name (l : List Contact) (name : String) : List Contact :=
  l.filter (fun c => lower c.name == lower name)

/-- Model of `ContactsCollection.__setitem__` with an in-range index: plain list
assignment (only the argument's type is checked, not duplicate names). -/
def setItem (l : List Contact) (i : Nat) (c : Contact) : List Contact := l.set i c

/-- No two stored contacts are equal under `Contact.__eq__`. -/
def nodupC : List Contact → Bool
  | [] => true
  | c :: rest => !memC c rest && nodupC rest

/-! ## Persistence (`StorageManager` and `pickle`) -/

/-- An element of an unpickled Python list, as dispatched by `_extend`
when `_load_contacts` runs `contacts += c`: a `Contact` is merged; a
`list`/`tuple`/`ContactsCollection` element, or a `dict` element taken as
its values in order, has each of its items fed to `_add_contact`, which
merges a `Contact` and raises `TypeError` on any other value (so an empty
collection is skipped silently and a nested collection raises); an
element of any other type makes `_extend` itself raise `TypeError`. -/
inductive Item where
  | contact (c : Contact)
  | coll (vs : List Item)
  | other

/-- The contents of the backing file, as far as `pickle.loads` is
concerned: absent/empty (falsy `raw`), bytes that fail to unpickle, a
pickled Python list, or a pickled value of any non-list type. -/
inductive Blob where
  | missingOrEmpty
  | corrupt
  | pyList (items : List Item)
  | nonList

/-- Model of `pickle.dumps(list(self.contacts))`. -/
def serialize (l : List Contact) : Blob := Blob.pyList (l.map Item.contact)

/-- Model of `pickle.loads` on the raw bytes, projected to the expected shape:
`some items` when the bytes unpickle to a Python list, `none` when
unpickling raises or yields a value of some other type. -/
def deserialize : Blob → Option (List Item)
  | .pyList items => some items
  | _ => none

/-- Reading a pickled list back as contacts; `none` at the first element
that is not a `Contact`. -/
def itemsToContacts : List Item → Option (List Contact)
  | [] => some []
  | .contact c :: rest => (itemsToContacts rest).map (c :: ·)
  | _ => none

/-! ## ContactManager -/

/-- The manager's state: the in-memory collection, the backing file's
contents, and a count of `StorageManager.save` calls (used to state that
an operation performs no write). -/
structure MState where
  contacts : List Contact
  file : Blob
  writes : Nat

/-- The one outcome line printed by each operation: a success message, an
`[Info]` message, an `[Error]` message, or an uncaught exception. -/
inductive Outcome where
  | ok
  | info
  | err
  | raised
deriving DecidableEq

/-- Model of `StorageManager.save`: overwrite the file's entire contents. -/
def storageSave (s : MState) (b : Blob) : MState :=
  { s with file := b, writes := s.writes + 1 }

/-- Model of `StorageManager.load`: read the file's entire contents. -/
def storageLoad (s : MState) : Blob := s.file

/-- Model of `ContactManager._save_contacts` after the store became `l`. -/
def saveState (s : MState) (l : List Contact) : MState :=
  { contacts := l, file := serialize l, writes := s.writes + 1 }

/-- Model of `ContactManager.add_contact`: construct, merge, sort, persist; on a
`ValueError` from construction report `[Error]` and change nothing. -/
def add_contact (s : MState) (name phone email : String) : MState × Outcome :=
  match Contact.construct name phone email with
  | .error _ => (s, .err)
  | .ok c => (saveState s (sortC (addContact s.contacts c)), .ok)

/-- Python `phone.strip() if phone else contact.phone`: a `None` or empty-string
argument keeps the current value. -/
def optField (v : Option String) (current : String) : String :=
  match v with
  | none => current
  | some t => if t = "" then current else pstrip t

/-- Model of `ContactManager.update_contact`. -/
def update_contact (s : MState) (name : String) (phone email : Option String) :
    MState × Outcome :=
  match find_by_name s.contacts name with
  | [] => (s, .info)
  | contact :: _ =>
    match Contact.construct contact.name (optField phone contact.phone)
        (optField email contact.email) with
    | .error _ => (s, .err)
    | .ok updated =>
      match listRemove s.contacts contact with
      | none => (s, .err)
      | some l2 => (saveState s (sortC (addContact l2 updated)), .ok)

/-- Model of `ContactManager.delete_contact`.  The removal loop is outside any
`try`, so a failing `list.remove` would propagate (`Outcome.raised`) with
the earlier removals applied and nothing persisted; that branch is in fact
unreachable because every match is present. -/
def delete_contact (s : MState) (name : String) : MState × Outcome :=
  match find_by_name s.contacts name with
  | [] => (s, .info)
  | m :: ms =>
    match removeMany s.contacts (m :: ms) with
    | (l2, true) => (saveState s (sortC l2), .ok)
    | (l2, false) => ({ s with contacts := l2 }, .raised)

/-- Model of `ContactManager.search_contact`: read-only lookup and report. -/
def search_contact (s : MState) (name : String) : Outcome × List Contact :=
  match find_by_name s.contacts name with
  | [] => (.info, [])
  | m :: ms => (.ok, m :: ms)

/-- The loop of `_extend` over the items of a collection element: each
item goes to `_add_contact`, which merges a `Contact` and raises
`TypeError` on any other value.  The flag is `false` when an item raised;
the returned list keeps the merges performed before that item. -/
def addItems (store : List Contact) : List Item → List Contact × Bool
  | [] => (store, true)
  | .contact c :: rest => addItems (addContact store c) rest
  | _ :: _ => (store, false)

/-- Model of `ContactsCollection._extend` applied to one unpickled list
element via `contacts += c` in `_load_contacts`: a `Contact` is merged, a
collection (or dict, taken as its values) has its items merged one by
one, and any other value raises.  The flag is `false` when a `TypeError`
was raised; the returned list keeps the merges already performed. -/
def extendItem (store : List Contact) : Item → List Contact × Bool
  | .contact c => (addContact store c, true)
  | .coll vs => addItems store vs
  | .other => (store, false)

/-- The loop of `_load_contacts` over an unpickled list: `contacts += c`
for each element.  The first element on which `_extend` raises stops the
loop inside the `try`, the warning is printed (flag `true`), and the
contacts merged so far — including those merged from the raising
element's own prefix — stay in the store. -/
def loadItems (store : List Contact) : List Item → List Contact × Bool
  | [] => (store, false)
  | it :: rest =>
    match extendItem store it with
    | (store2, true) => loadItems store2 rest
    | (store2, false) => (store2, true)

/-- Model of `ContactManager._load_contacts` on the raw file contents, starting from
an empty store.  Returns the resulting store and whether the
`"Failed to parse saved contacts."` warning was printed. -/
def loadContacts : Blob → List Contact × Bool
  | .missingOrEmpty => ([], false)
  | .corrupt => ([], true)
  | .nonList => ([], false)
  | .pyList items => loadItems [] items

-- Sanity checks.
example : addContact [⟨"Alice", "1", "a@b.c"⟩] ⟨"ALICE", "2", "x@y.z"⟩ =
    [⟨"Alice", "1", "a@b.c"⟩] := by decide
example : sortC [⟨"b", "1", "a@b.c"⟩, ⟨"A", "1", "a@b.c"⟩, ⟨"a", "2", "x@y.z"⟩] =
    [⟨"A", "1", "a@b.c"⟩, ⟨"a", "2", "x@y.z"⟩, ⟨"b", "1", "a@b.c"⟩] := by decide
example : removeMany [⟨"A", "1", "a@b.c"⟩] [⟨"a", "9", "q@w.e"⟩, ⟨"B", "1", "a@b.c"⟩] =
    ([], false) := by decide
example : loadContacts (.pyList [.contact ⟨"A", "1", "a@b.c"⟩, .other,
    .contact ⟨"B", "1", "a@b.c"⟩]) = ([⟨"A", "1", "a@b.c"⟩], true) := by decide
example : loadContacts (.pyList [.coll [], .contact ⟨"A", "1", "a@b.c"⟩]) =
    ([⟨"A", "1", "a@b.c"⟩], false) := by decide
example : loadContacts (.pyList [.coll [.contact ⟨"A", "1", "a@b.c"⟩,
    .contact ⟨"B", "1", "a@b.c"⟩]]) =
    ([⟨"A", "1", "a@b.c"⟩, ⟨"B", "1", "a@b.c"⟩], false) := by decide
example : loadContacts (.pyList [.coll [.contact ⟨"A", "1", "a@b.c"⟩, .other],
    .contact ⟨"B", "1", "a@b.c"⟩]) = ([⟨"A", "1", "a@b.c"⟩], true) := by decide

/-! ## Lemmas about `Contact.__eq__` and membership -/

theorem ceq_refl (a : Contact) : ceq a a = true := by
  simp [ceq]

theorem ceq_symm (a b : Contact) : ceq a b = ceq b a := by
  by_cases h : lower a.name = lower b.name
  · simp [ceq, h]
  · simp [ceq, beq_eq_false_iff_ne, h, Ne.symm h]

theorem ceq_trans {a b c : Contact} (h1 : ceq a b = true) (h2 : ceq b c = true) :
    ceq a c = true := by
  simp only [ceq, beq_iff_eq] at *
  exact h1.trans h2

theorem memC_iff {c : Contact} {l : List Contact} :
    memC c l = true ↔ ∃ x ∈ l, ceq x c = true := by
  simp [memC, List.any_eq_true]

theorem memC_false_iff {c : Contact} {l : List Contact} :
    memC c l = false ↔ ∀ x ∈ l, ceq x c = false := by
  simp [memC, List.any_eq_false]

/-! ## Lemmas about `_add_contact` and `_extend` -/

theorem addContact_of_mem {l : List Contact} {c : Contact} (h : memC c l = true) :
    addContact l c = l := by
  simp [addContact, h]

theorem addContact_of_not_mem {l : List Contact} {c : Contact} (h : memC c l = false) :
    addContact l c = l ++ [c] := by
  simp [addContact, h]

theorem mem_addContact {l : List Contact} {c x : Contact} (h : x ∈ addContact l c) :
    x ∈ l ∨ x = c := by
  unfold addContact at h
  split at h
  · exact .inl h
  · rcases List.mem_append.mp h with h' | h'
    · exact .inl h'
    · exact .inr (List.mem_singleton.mp h')

theorem mem_addContact_of_mem {l : List Contact} {c x : Contact} (h : x ∈ l) :
    x ∈ addContact l c := by
  unfold addContact
  split
  · exact h
  · exact List.mem_append_left _ h

theorem mem_foldl_addContact {cs : List Contact} {l : List Contact} {x : Contact}
    (h : x ∈ cs.foldl addContact l) : x ∈ l ∨ x ∈ cs := by
  induction cs generalizing l with
  | nil => exact .inl h
  | cons c rest ih =>
    rcases ih h with h' | h'
    · rcases mem_addContact h' with h'' | h''
      · exact .inl h''
      · exact .inr (h'' ▸ List.mem_cons_self c rest)
    · exact .inr (List.mem_cons_of_mem c h')

theorem mem_foldl_addContact_of_mem {cs : List Contact} {l : List Contact} {x : Contact}
    (h : x ∈ l) : x ∈ cs.foldl addContact l := by
  induction cs generalizing l with
  | nil => exact h
  | cons c rest ih => exact ih (mem_addContact_of_mem h)

/-! ## The no-duplicates invariant -/

/-- Propositional form of `nodupC`. -/
def PW (l : List Contact) : Prop := l.Pairwise (fun a b => ceq a b = false)

theorem nodupC_iff_pw {l : List Contact} : nodupC l = true ↔ PW l := by
  induction l with
  | nil => simp [nodupC, PW]
  | cons c rest ih =>
    simp only [nodupC, Bool.and_eq_true, Bool.not_eq_true', PW, List.pairwise_cons]
    rw [memC_false_iff]
    constructor
    · rintro ⟨h1, h2⟩
      exact ⟨fun x hx => (ceq_symm c x).trans (h1 x hx), ih.mp h2⟩
    · rintro ⟨h1, h2⟩
      exact ⟨fun x hx => (ceq_symm x c).trans (h1 x hx), ih.mpr h2⟩

theorem pw_symm : ∀ {x y : Contact}, ceq x y = false → ceq y x = false :=
  fun {x y} h => (ceq_symm y x).trans h

theorem nodupC_addContact {l : List Contact} {c : Contact} (h : nodupC l = true) :
    nodupC (addContact l c) = true := by
  unfold addContact
  split
  · exact h
  · rename_i hmem
    rw [nodupC_iff_pw, PW, List.pairwise_append]
    refine ⟨nodupC_iff_pw.mp h, List.pairwise_singleton _ _, ?_⟩
    intro a ha b hb
    rw [List.mem_singleton.mp hb]
    exact memC_false_iff.mp (Bool.of_not_eq_true hmem) a ha

theorem nodupC_foldl_addContact {cs l : List Contact} (h : nodupC l = true) :
    nodupC (cs.foldl addContact l) = true := by
  induction cs generalizing l with
  | nil => exact h
  | cons c rest ih => exact ih (nodupC_addContact h)

theorem nodupC_extend {l : List Contact} (inp : MergeInput) (h : nodupC l = true) :
    nodupC (extend l inp) = true := by
  cases inp with
  | single c => exact nodupC_addContact h
  | many cs => exact nodupC_foldl_addContact h
  | keyed m => exact nodupC_foldl_addContact h

/-! ## Lemmas about `list.remove` and `_remove` -/

theorem listRemove_none_iff {l : List Contact} {c : Contact} :
    listRemove l c = none ↔ memC c l = false := by
  induction l with
  | nil => simp [listRemove, memC]
  | cons x xs ih =>
    by_cases hx : ceq x c = true
    · simp [listRemove, memC, hx]
    · have hx' : ceq x c = false := Bool.of_not_eq_true hx
      simpa [listRemove, memC, hx', Option.map_eq_none] using ih

theorem listRemove_sublist {l l' : List Contact} {c : Contact}
    (h : listRemove l c = some l') : l'.Sublist l := by
  induction l generalizing l' with
  | nil => simp [listRemove] at h
  | cons x xs ih =>
    unfold listRemove at h
    split at h
    · cases h
      exact (List.sublist_cons_self x xs)
    · rcases Option.map_eq_some.mp h with ⟨l2, h2, rfl⟩
      exact (ih h2).cons₂ x

theorem nodupC_listRemove {l l' : List Contact} {c : Contact}
    (h : listRemove l c = some l') (hn : nodupC l = true) : nodupC l' = true := by
  rw [nodupC_iff_pw] at *
  exact List.Pairwise.sublist (listRemove_sublist h) hn

theorem removeMany_cons (l : List Contact) (c : Contact) (rest : List Contact) :
    removeMany l (c :: rest) =
      match listRemove l c with
      | none => (l, false)
      | some l2 => removeMany l2 rest := rfl

theorem nodupC_removeMany {cs l : List Contact} (h : nodupC l = true) :
    nodupC (removeMany l cs).1 = true := by
  induction cs generalizing l with
  | nil => exact h
  | cons c rest ih =>
    rw [removeMany_cons]
    cases h2 : listRemove l c with
    | none => exact h
    | some l2 => exact ih (nodupC_listRemove h2 h)

theorem nodupC_removeBulk {l : List Contact} (inp : MergeInput) (h : nodupC l = true) :
    nodupC (removeBulk l inp).1 = true := by
  cases inp with
  | single c =>
    have step : removeBulk l (.single c) =
        match listRemove l c with
        | none => (l, false)
        | some l2 => (l2, true) := rfl
    rw [step]
    cases h2 : listRemove l c with
    | none => exact h
    | some l2 => exact nodupC_listRemove h2 h
  | many cs => exact nodupC_removeMany h
  | keyed m => exact nodupC_removeMany h

/-- A removal that finds its target: the first element equal to `c` is
dropped and everything else is kept. -/
theorem listRemove_split {p q : List Contact} {x c : Contact}
    (hp : ∀ y ∈ p, ceq y c = false) (hx : ceq x c = true) :
    listRemove (p ++ x :: q) c = some (p ++ q) := by
  induction p with
  | nil => simp [listRemove, hx]
  | cons y ys ih =>
    have hy := hp y (List.mem_cons_self y ys)
    have step : listRemove ((y :: ys) ++ x :: q) c =
        (listRemove (ys ++ x :: q) c).map (y :: ·) := by
      show (if ceq y c = true then some (ys ++ x :: q)
            else (listRemove (ys ++ x :: q) c).map (y :: ·)) =
          (listRemove (ys ++ x :: q) c).map (y :: ·)
      rw [if_neg]
      simp [hy]
    rw [step, ih fun z hz => hp z (List.mem_cons_of_mem y hz)]
    rfl

theorem removeMany_append {l l' cs2 : List Contact} {cs1 : List Contact}
    (h : removeMany l cs1 = (l', true)) :
    removeMany l (cs1 ++ cs2) = removeMany l' cs2 := by
  induction cs1 generalizing l with
  | nil =>
    simp only [removeMany] at h
    cases h
    simp
  | cons c rest ih =>
    rw [removeMany_cons] at h
    cases h2 : listRemove l c with
    | none =>
      rw [h2] at h
      simp at h
    | some l2 =>
      rw [h2] at h
      have step : removeMany l ((c :: rest) ++ cs2) = removeMany l2 (rest ++ cs2) := by
        show removeMany l (c :: (rest ++ cs2)) = _
        rw [removeMany_cons, h2]
      rw [step]
      exact ih h

/-! ## Lemmas about `sort` -/

theorem insertSorted_perm (c : Contact) (l : List Contact) :
    (insertSorted c l).Perm (c :: l) := by
  induction l with
  | nil => exact List.Perm.refl _
  | cons x xs ih =>
    unfold insertSorted
    split
    · exact (ih.cons x).trans (List.Perm.swap c x xs)
    · exact List.Perm.refl _

theorem sortC_perm (l : List Contact) : (sortC l).Perm l := by
  induction l with
  | nil => exact List.Perm.refl _
  | cons x xs ih =>
    exact (insertSorted_perm x (sortC xs)).trans (ih.cons x)

theorem nodupC_sortC {l : List Contact} (h : nodupC l = true) :
    nodupC (sortC l) = true := by
  rw [nodupC_iff_pw] at *
  exact h.perm (sortC_perm l).symm pw_symm

/-! ## Lemmas about `str.strip` -/

theorem dropWhile_dropWhile (p : Char → Bool) (l : List Char) :
    (l.dropWhile p).dropWhile p = l.dropWhile p := by
  induction l with
  | nil => rfl
  | cons x xs ih =>
    rw [List.dropWhile_cons]
    split
    · exact ih
    · rename_i h
      rw [List.dropWhile_cons, if_neg h]

theorem dropWhile_suffix_ex (p : Char → Bool) (l : List Char) :
    ∃ t, l = t ++ l.dropWhile p := by
  induction l with
  | nil => exact ⟨[], rfl⟩
  | cons x xs ih =>
    rw [List.dropWhile_cons]
    split
    · rcases ih with ⟨t, ht⟩
      exact ⟨x :: t, by rw [List.cons_append, ← ht]⟩
    · exact ⟨[], rfl⟩

theorem dropWhile_fixed_of_append {p : Char → Bool} {l q t : List Char}
    (hl : l.dropWhile p = l) (hq : l = q ++ t) : q.dropWhile p = q := by
  cases q with
  | nil => rfl
  | cons x xs =>
    have hx : ¬p x = true := by
      intro hx
      subst hq
      rw [List.cons_append, List.dropWhile_cons, if_pos hx] at hl
      rcases dropWhile_suffix_ex p (xs ++ t) with ⟨t', ht'⟩
      rw [hl] at ht'
      have hlen := congrArg List.length ht'
      simp [List.length_append] at hlen
      omega
    rw [List.dropWhile_cons, if_neg hx]

theorem stripList_idem (cs : List Char) : stripList (stripList cs) = stripList cs := by
  unfold stripList
  generalize hd : cs.dropWhile Char.isWhitespace = d
  generalize hr : d.reverse.dropWhile Char.isWhitespace = r
  have hfix : d.dropWhile Char.isWhitespace = d := by
    have := dropWhile_dropWhile Char.isWhitespace cs
    rwa [hd] at this
  have hrfix : r.dropWhile Char.isWhitespace = r := by
    have := dropWhile_dropWhile Char.isWhitespace d.reverse
    rwa [hr] at this
  rcases dropWhile_suffix_ex Char.isWhitespace d.reverse with ⟨t, ht⟩
  rw [hr] at ht
  have hdecomp : d = r.reverse ++ t.reverse := by
    have := congrArg List.reverse ht
    simpa [List.reverse_append] using this
  have hYfix : r.reverse.dropWhile Char.isWhitespace = r.reverse :=
    dropWhile_fixed_of_append hfix hdecomp
  rw [hYfix, List.reverse_reverse, hrfix]

theorem pstrip_idem (s : String) : pstrip (pstrip s) = pstrip s :=
  congrArg String.mk (stripList_idem s.data)

theorem pstrip_eq_empty_iff {s : String} : pstrip s = "" ↔ stripList s.data = [] := by
  constructor
  · intro h
    have := congrArg String.data h
    simpa [pstrip] using this
  · intro h
    exact String.ext (show stripList s.data = ("" : String).data by simpa using h)

/-! ## The email regular expression matches exactly the spec's shape -/

theorem all_notAt_iff {l : List Char} : l.all notAt = true ↔ '@' ∉ l := by
  rw [List.all_eq_true]
  constructor
  · intro h hmem
    have := h '@' hmem
    simp [notAt] at this
  · intro h x hx
    have : x ≠ '@' := fun e => h (e ▸ hx)
    simpa [notAt] using this

theorem dotSplitTail_iff {r : List Char} :
    dotSplitTail r = true ↔ ∃ b c, r = b ++ '.' :: c ∧ c ≠ [] := by
  induction r with
  | nil =>
    constructor
    · intro h
      simp [dotSplitTail] at h
    · rintro ⟨b, c, h, hc⟩
      exact absurd h.symm (by simp)
  | cons x rest ih =>
    simp only [dotSplitTail, Bool.or_eq_true, Bool.and_eq_true]
    rw [ih]
    constructor
    · rintro (⟨hx, hne⟩ | ⟨b, c, rfl, hc⟩)
      · refine ⟨[], rest, ?_, ?_⟩
        · rw [eq_of_beq hx]
          rfl
        · simpa [List.isEmpty_iff] using hne
      · exact ⟨x :: b, c, rfl, hc⟩
    · rintro ⟨b, c, heq, hc⟩
      cases b with
      | nil =>
        obtain ⟨rfl, rfl⟩ : x = '.' ∧ rest = c := by
          injection heq with h1 h2
          exact ⟨h1, h2⟩
        exact .inl ⟨beq_self_eq_true '.', by simpa [List.isEmpty_iff] using hc⟩
      | cons y b' =>
        obtain ⟨rfl, h2⟩ : x = y ∧ rest = b' ++ '.' :: c := by
          injection heq with h1 h2
          exact ⟨h1, h2⟩
        exact .inr ⟨b', c, h2, hc⟩

theorem takeWhile_append_of_all {p : Char → Bool} {a : List Char} {y : Char} {t : List Char}
    (ha : ∀ x ∈ a, p x = true) (hy : p y = false) :
    (a ++ y :: t).takeWhile p = a := by
  induction a with
  | nil => simp [List.takeWhile_cons, hy]
  | cons z zs ih =>
    have hz := ha z (List.mem_cons_self z zs)
    rw [List.cons_append, List.takeWhile_cons, if_pos hz,
      ih fun w hw => ha w (List.mem_cons_of_mem z hw)]

theorem dropWhile_append_of_all {p : Char → Bool} {a : List Char} {y : Char} {t : List Char}
    (ha : ∀ x ∈ a, p x = true) (hy : p y = false) :
    (a ++ y :: t).dropWhile p = y :: t := by
  induction a with
  | nil => simp [List.dropWhile_cons, hy]
  | cons z zs ih =>
    have hz := ha z (List.mem_cons_self z zs)
    rw [List.cons_append, List.dropWhile_cons, if_pos hz,
      ih fun w hw => ha w (List.mem_cons_of_mem z hw)]

theorem emailList_iff {cs : List Char} :
    emailList cs = true ↔
      ∃ a b c : List Char, cs = a ++ '@' :: (b ++ '.' :: c) ∧
        a ≠ [] ∧ b ≠ [] ∧ c ≠ [] ∧ '@' ∉ a ∧ '@' ∉ b ∧ '@' ∉ c := by
  constructor
  · intro h
    unfold emailList at h
    split at h
    · rename_i t heq
      rw [Bool.and_eq_true, Bool.and_eq_true] at h
      obtain ⟨⟨hne, hall⟩, htail⟩ := h
      cases t with
      | nil => simp at htail
      | cons x r =>
        obtain ⟨b', c, hr, hc⟩ := dotSplitTail_iff.mp htail
        have hsplit := List.takeWhile_append_dropWhile notAt cs
        rw [heq] at hsplit
        have hat : '@' ∉ x :: r := by
          rw [← all_notAt_iff]
          exact hall
        refine ⟨cs.takeWhile notAt, x :: b', c, ?_, ?_, by simp, hc, ?_, ?_, ?_⟩
        · rw [hr] at hsplit
          exact hsplit.symm
        · intro hnil
          rw [hnil] at hne
          simp at hne
        · intro hmem
          have := List.mem_takeWhile_imp hmem
          simp [notAt] at this
        · intro hmem
          apply hat
          rcases List.mem_cons.mp hmem with h' | h'
          · exact h' ▸ List.mem_cons_self x r
          · exact List.mem_cons_of_mem x (hr ▸ List.mem_append_left _ h')
        · intro hmem
          apply hat
          exact List.mem_cons_of_mem x
            (hr ▸ List.mem_append_right _ (List.mem_cons_of_mem '.' hmem))
    · exact absurd h (by simp)
  · rintro ⟨a, b, c, rfl, ha, hb, hc, hna, hnb, hnc⟩
    have ha' : ∀ x ∈ a, notAt x = true := by
      intro x hx
      have : x ≠ '@' := fun e => hna (e ▸ hx)
      simpa [notAt] using this
    have hAt : notAt '@' = false := by simp [notAt]
    have hdw := dropWhile_append_of_all ha' hAt (t := b ++ '.' :: c)
    have htw := takeWhile_append_of_all ha' hAt (t := b ++ '.' :: c)
    unfold emailList
    rw [hdw, htw]
    have hallt : (b ++ '.' :: c).all notAt = true := by
      rw [all_notAt_iff]
      intro hmem
      rcases List.mem_append.mp hmem with h' | h'
      · exact hnb h'
      · rcases List.mem_cons.mp h' with h'' | h''
        · exact absurd h''.symm (by decide)
        · exact hnc h''
    cases b with
    | nil => exact absurd rfl hb
    | cons y b' =>
      have hdot : dotSplitTail (b' ++ '.' :: c) = true :=
        dotSplitTail_iff.mpr ⟨b', c, rfl, hc⟩
      simp only [List.cons_append] at hallt ⊢
      rw [hallt, hdot]
      simpa [List.isEmpty_iff] using ha

theorem emailMatch_iff_shape {s : String} : emailMatch s = true ↔ EmailShape s :=
  emailList_iff

/-! ## Characterization of `Contact.__init__` -/

theorem construct_eq_ok {n p e : String} {ct : Contact} :
    Contact.construct n p e = .ok ct ↔
      pstrip n ≠ "" ∧ pstrip p ≠ "" ∧ emailMatch (pstrip e) = true ∧
      ct = ⟨pstrip n, pstrip p, pstrip e⟩ := by
  have hch : Contact.construct n p e =
      (if pstrip n = "" then Except.error "Name cannot be empty."
       else if pstrip p = "" then Except.error "Phone cannot be empty."
       else if emailMatch (pstrip e) then Except.ok ⟨pstrip n, pstrip p, pstrip e⟩
       else Except.error "Invalid email format") := rfl
  rw [hch]
  split_ifs with h1 h2 h3
  · simp [h1]
  · simp [h2]
  · constructor
    · intro hok
      cases hok
      exact ⟨h1, h2, h3, rfl⟩
    · rintro ⟨-, -, -, rfl⟩
      rfl
  · constructor
    · intro hok
      cases hok
    · rintro ⟨-, -, h3', -⟩
      exact absurd h3' h3

theorem except_error_of_not_ok {x : Except String Contact} (h : ∀ ct, x ≠ .ok ct) :
    ∃ msg, x = .error msg := by
  cases x with
  | error msg => exact ⟨msg, rfl⟩
  | ok ct => exact absurd rfl (h ct)

/-! ## Concrete contacts used in witnesses and counterexamples -/

def alice : Contact := ⟨"Alice", "555-1111", "alice@example.com"⟩

def alice2 : Contact := ⟨"alice", "555-2222", "alice2@example.com"⟩

def bob : Contact := ⟨"Bob", "555-3333", "bob@example.com"⟩

def carol : Contact := ⟨"Carol", "555-4444", "carol@example.com"⟩

/-! ## The claims -/

/-- C1: merging a contact `c` — as a single contact, as an element of a
sequence, or as a value of a name-keyed mapping — goes through
`_add_contact`, which appends `c` only when no stored element is equal to
it by case-insensitive name; when an equal element is present the stored
sequence is left entirely unchanged (phone/email of the existing element
retained), and merging the same contact twice equals merging it once. -/
theorem merge_duplicate_suppression (l : List Contact) (c : Contact) (k : String) :
    extend l (.single c) = addContact l c ∧
    extend l (.many [c]) = addContact l c ∧
    extend l (.keyed [(k, c)]) = addContact l c ∧
    (memC c l = true → addContact l c = l) ∧
    (memC c l = false → addContact l c = l ++ [c]) ∧
    extend (extend l (.single c)) (.single c) = extend l (.single c) := by
  refine ⟨rfl, rfl, rfl, addContact_of_mem, addContact_of_not_mem, ?_⟩
  show addContact (addContact l c) c = addContact l c
  by_cases h : memC c l = true
  · rw [addContact_of_mem h, addContact_of_mem h]
  · have h' : memC c l = false := Bool.of_not_eq_true h
    rw [addContact_of_not_mem h']
    apply addContact_of_mem
    rw [memC_iff]
    exact ⟨c, List.mem_append_right _ (List.mem_singleton_self c), ceq_refl c⟩

/-- Witness for C1: re-adding a same-named contact with different
phone/email leaves the store unchanged; adding a new name appends. -/
theorem merge_duplicate_suppression_w :
    addContact [alice] alice2 = [alice] ∧ addContact [] bob = [bob] :=
  ⟨(merge_duplicate_suppression [alice] alice2 "k").2.2.2.1 (by decide),
   (merge_duplicate_suppression [] bob "k").2.2.2.2.1 (by decide)⟩

/-- C2: bulk removal (sequence or name-keyed mapping input) processes the
input in order, removing for each element the first stored element equal
to it; at the first element with no equal stored element it raises,
leaving the removals already performed in that call applied — it is not
all-or-nothing. -/
theorem remove_stops_at_missing (l l' cs1 cs2 : List Contact) (c : Contact)
    (h1 : removeMany l cs1 = (l', true)) (h2 : memC c l' = false) :
    removeBulk l (.many (cs1 ++ c :: cs2)) = (l', false) ∧
    (∀ m : List (String × Contact), m.map Prod.snd = cs1 ++ c :: cs2 →
      removeBulk l (.keyed m) = (l', false)) ∧
    (∀ (p q : List Contact) (x d : Contact), (∀ y ∈ p, ceq y d = false) →
      ceq x d = true → listRemove (p ++ x :: q) d = some (p ++ q)) := by
  have hmain : removeMany l (cs1 ++ c :: cs2) = (l', false) := by
    rw [removeMany_append h1, removeMany_cons, listRemove_none_iff.mpr h2]
  refine ⟨hmain, ?_, fun p q x d hp hx => listRemove_split hp hx⟩
  intro m hm
  show removeMany l (m.map Prod.snd) = (l', false)
  rw [hm]
  exact hmain

/-- Witness for C2: removing `[Bob, Carol, Alice]` from `[Alice, Bob]`
removes Bob, then aborts at Carol with Alice still present (and never
removed). -/
theorem remove_stops_at_missing_w :
    removeBulk [alice, bob] (.many ([bob] ++ carol :: [alice])) = ([alice], false) :=
  (remove_stops_at_missing [alice, bob] [alice] [bob] [alice] carol
    (by decide) (by decide)).1

/-- C3 as stated is false at this concrete input: `[Alice, Bob]` is a
reachable duplicate-free store, but `__setitem__` does not check for
duplicate names, so assigning a contact named "alice" to index 1 yields a
store with two contacts equal by case-insensitive name. -/
theorem setitem_breaks_invariant :
    nodupC (extend [] (.many [alice, bob])) = true ∧
    setItem (extend [] (.many [alice, bob])) 1 alice2 = [alice, alice2] ∧
    nodupC [alice, alice2] = false := by decide

/-- C3 amended: construction from an initial collection, merge of any of
the three input shapes, bulk or single remove, and sort all preserve the
no-duplicates invariant; index assignment is excluded because it performs
no duplicate check. -/
theorem store_nodup_invariant (l : List Contact) (inp : MergeInput)
    (h : nodupC l = true) :
    nodupC (extend l inp) = true ∧
    nodupC (removeBulk l inp).1 = true ∧
    nodupC (sortC l) = true ∧
    (∀ data : MergeInput, nodupC (extend [] data) = true) :=
  ⟨nodupC_extend inp h, nodupC_removeBulk inp h, nodupC_sortC h,
   fun data => nodupC_extend data rfl⟩

/-- Witness for C3's amended theorem: merging a duplicate of Alice into a
duplicate-free store keeps the invariant. -/
theorem store_nodup_invariant_w :
    nodupC (extend [alice, bob] (.single alice2)) = true :=
  (store_nodup_invariant [alice, bob] (.single alice2) (by decide)).1

/-- C4: construction trims all three fields and succeeds exactly when the
trimmed name and phone are non-empty and the trimmed email has the
anchored shape `[^@]+@[^@]+\.[^@]+`; on success `to_dict` returns exactly
the trimmed triple, otherwise construction fails with an error. -/
theorem construct_validation_spec (name phone email : String) :
    ((∃ ct, Contact.construct name phone email = .ok ct) ↔
      (pstrip name ≠ "" ∧ pstrip phone ≠ "" ∧ EmailShape (pstrip email))) ∧
    (∀ ct, Contact.construct name phone email = .ok ct →
      ct.to_dict = (pstrip name, pstrip phone, pstrip email)) ∧
    ((pstrip name = "" ∨ pstrip phone = "" ∨ ¬EmailShape (pstrip email)) →
      ∃ msg, Contact.construct name phone email = .error msg) := by
  have hiff : (∃ ct, Contact.construct name phone email = .ok ct) ↔
      (pstrip name ≠ "" ∧ pstrip phone ≠ "" ∧ EmailShape (pstrip email)) := by
    constructor
    · rintro ⟨ct, hct⟩
      obtain ⟨h1, h2, h3, -⟩ := construct_eq_ok.mp hct
      exact ⟨h1, h2, emailMatch_iff_shape.mp h3⟩
    · rintro ⟨h1, h2, h3⟩
      exact ⟨_, construct_eq_ok.mpr ⟨h1, h2, emailMatch_iff_shape.mpr h3, rfl⟩⟩
  refine ⟨hiff, ?_, ?_⟩
  · intro ct hct
    obtain ⟨-, -, -, rfl⟩ := construct_eq_ok.mp hct
    rfl
  · intro hbad
    apply except_error_of_not_ok
    intro ct hct
    obtain ⟨h1, h2, h3⟩ := hiff.mp ⟨ct, hct⟩
    rcases hbad with h | h | h
    · exact h1 h
    · exact h2 h
    · exact h h3

/-- Witness for C4: a valid triple constructs and projects to its trimmed
fields. -/
theorem construct_validation_spec_w :
    Contact.construct " Alice " "555-1111" " alice@example.com " =
      .ok ⟨"Alice", "555-1111", "alice@example.com"⟩ ∧
    (⟨"Alice", "555-1111", "alice@example.com"⟩ : Contact).to_dict =
      (pstrip " Alice ", pstrip "555-1111", pstrip " alice@example.com ") :=
  ⟨rfl, (construct_validation_spec " Alice " "555-1111" " alice@example.com ").2.1
    ⟨"Alice", "555-1111", "alice@example.com"⟩ rfl⟩

/-- Computation rule for `update_contact` once the lookup has found a
first match. -/
theorem update_contact_found {s : MState} {name : String} {phone email : Option String}
    {c : Contact} {rest : List Contact}
    (hfind : find_by_name s.contacts name = c :: rest) :
    update_contact s name phone email =
      match Contact.construct c.name (optField phone c.phone)
          (optField email c.email) with
      | .error _ => (s, Outcome.err)
      | .ok updated =>
        match listRemove s.contacts c with
        | none => (s, Outcome.err)
        | some l2 => (saveState s (sortC (addContact l2 updated)), Outcome.ok) := by
  unfold update_contact
  rw [hfind]

/-- C5: when `Contact` construction fails — for `add_contact` on an
invalid triple, or for `update_contact` on an invalid merged replacement
triple — the exception is caught, an error is reported, and the manager
state (store, backing file, and write count) is left entirely unchanged. -/
theorem invalid_input_no_mutation (s : MState) :
    (∀ n p e err, Contact.construct n p e = .error err →
      add_contact s n p e = (s, .err)) ∧
    (∀ name (phone email : Option String) (c : Contact) (rest : List Contact) err,
      find_by_name s.contacts name = c :: rest →
      Contact.construct c.name (optField phone c.phone) (optField email c.email) =
        .error err →
      update_contact s name phone email = (s, .err)) := by
  constructor
  · intro n p e err herr
    unfold add_contact
    rw [herr]
  · intro name phone email c rest err hfind herr
    rw [update_contact_found hfind, herr]

/-- Witness for C5: adding a contact with a blank name reports an error
and leaves the state (including the write counter) untouched. -/
theorem invalid_input_no_mutation_w :
    add_contact ⟨[alice], serialize [alice], 1⟩ " " "555" "a@b.c" =
      (⟨[alice], serialize [alice], 1⟩, .err) :=
  (invalid_input_no_mutation ⟨[alice], serialize [alice], 1⟩).1 " " "555" "a@b.c"
    "Name cannot be empty." rfl

/-- C7: update, delete and search on a name with no case-insensitive match
all report an informational "not found" outcome, raise nothing, leave the
manager state unchanged, and perform no persistence write. -/
theorem absent_name_noop (s : MState) (name : String) (phone email : Option String)
    (h : find_by_name s.contacts name = []) :
    update_contact s name phone email = (s, .info) ∧
    delete_contact s name = (s, .info) ∧
    search_contact s name = (.info, []) := by
  refine ⟨?_, ?_, ?_⟩
  · unfold update_contact
    rw [h]
  · unfold delete_contact
    rw [h]
  · unfold search_contact
    rw [h]

/-- Witness for C7: deleting "Bob" from a store holding only Alice reports
"not found" and changes nothing. -/
theorem absent_name_noop_w :
    delete_contact ⟨[alice], serialize [alice], 1⟩ "Bob" =
      (⟨[alice], serialize [alice], 1⟩, .info) :=
  (absent_name_noop ⟨[alice], serialize [alice], 1⟩ "Bob" none none rfl).2.1

/-- C8: saving overwrites the file's entire previous contents, and
serialize–save–load–deserialize reproduces exactly the store's list of
contacts (hence an equal multiset by `Contact` equality): every
name/phone/email triple round-trips losslessly. -/
theorem persistence_roundtrip (s : MState) (l : List Contact) (b0 : Blob) :
    (storageSave s b0).file = b0 ∧
    deserialize (storageLoad (storageSave s (serialize l))) =
      some (l.map Item.contact) ∧
    itemsToContacts (l.map Item.contact) = some l := by
  refine ⟨rfl, rfl, ?_⟩
  induction l with
  | nil => rfl
  | cons c rest ih => simp [itemsToContacts, ih]

/-- C9 as stated is false at these concrete inputs: a pickled list whose
second element is not a contact yields a warning but a NON-empty store,
and a pickled non-list value yields an empty store but NO warning. -/
theorem load_corrupt_keeps_merged :
    (loadContacts (Blob.pyList [Item.contact alice, Item.other])).1 = [alice] ∧
    (loadContacts (Blob.pyList [Item.contact alice, Item.other])).2 = true ∧
    (loadContacts Blob.nonList).2 = false := by decide

theorem addItems_contacts (cs : List Contact) (store : List Contact) :
    addItems store (cs.map Item.contact) = (cs.foldl addContact store, true) := by
  induction cs generalizing store with
  | nil => rfl
  | cons c cs ih => exact ih (addContact store c)

theorem addItems_stop_other (cs : List Contact) (store : List Contact)
    (rest : List Item) :
    addItems store (cs.map Item.contact ++ Item.other :: rest) =
      (cs.foldl addContact store, false) := by
  induction cs generalizing store with
  | nil => rfl
  | cons c cs ih => exact ih (addContact store c)

theorem loadItems_contacts_then (cs : List Contact) (store : List Contact)
    (its : List Item) :
    loadItems store (cs.map Item.contact ++ its) =
      loadItems (cs.foldl addContact store) its := by
  induction cs generalizing store with
  | nil => rfl
  | cons c cs ih => exact ih (addContact store c)

theorem loadItems_contacts (cs : List Contact) (store : List Contact) :
    loadItems store (cs.map Item.contact) = (cs.foldl addContact store, false) := by
  have h := loadItems_contacts_then cs store []
  rw [List.append_nil] at h
  rw [h]
  rfl

/-- C9 amended: if unpickling raises, a warning is reported and the store
is left empty; if the blob unpickles to a non-list value, loading
silently leaves the store empty (no warning); if it unpickles to a list,
the elements are processed in order — a contact is merged, a
list/tuple/collection or dict element has its contact values merged (an
empty one is skipped silently), and the first element on which the merge
raises a `TypeError` (a value of any other type, or a collection
containing a non-contact value, whose preceding values are still merged)
stops the loop with a warning, the store keeping everything merged up to
that point; in every case the load step returns normally and no
exception escapes. -/
theorem load_failure_behavior (cs ds : List Contact) (rest : List Item) :
    loadContacts Blob.corrupt = ([], true) ∧
    loadContacts Blob.missingOrEmpty = ([], false) ∧
    loadContacts Blob.nonList = ([], false) ∧
    loadContacts (Blob.pyList (cs.map Item.contact)) =
      (cs.foldl addContact [], false) ∧
    loadContacts (Blob.pyList (cs.map Item.contact ++ Item.other :: rest)) =
      (cs.foldl addContact [], true) ∧
    loadContacts (Blob.pyList
        (Item.coll (cs.map Item.contact) :: ds.map Item.contact)) =
      ((cs ++ ds).foldl addContact [], false) ∧
    loadContacts (Blob.pyList (Item.coll [] :: ds.map Item.contact)) =
      (ds.foldl addContact [], false) ∧
    loadContacts (Blob.pyList (ds.map Item.contact ++
        [Item.coll (cs.map Item.contact ++ Item.other :: rest)])) =
      ((ds ++ cs).foldl addContact [], true) := by
  refine ⟨rfl, rfl, rfl, loadItems_contacts cs [], ?_, ?_, ?_, ?_⟩
  · rw [show loadContacts (Blob.pyList (cs.map Item.contact ++ Item.other :: rest)) =
      loadItems [] (cs.map Item.contact ++ Item.other :: rest) from rfl,
      loadItems_contacts_then]
    rfl
  · have h1 : extendItem [] (Item.coll (cs.map Item.contact)) =
        (cs.foldl addContact [], true) := addItems_contacts cs []
    have step : loadContacts (Blob.pyList
        (Item.coll (cs.map Item.contact) :: ds.map Item.contact)) =
        match extendItem [] (Item.coll (cs.map Item.contact)) with
        | (store2, true) => loadItems store2 (ds.map Item.contact)
        | (store2, false) => (store2, true) := rfl
    rw [step, h1]
    show loadItems (cs.foldl addContact []) (ds.map Item.contact) = _
    rw [loadItems_contacts, List.foldl_append]
  · show loadItems ([] : List Contact) (ds.map Item.contact) =
      (ds.foldl addContact [], false)
    exact loadItems_contacts ds []
  · rw [show loadContacts (Blob.pyList (ds.map Item.contact ++
        [Item.coll (cs.map Item.contact ++ Item.other :: rest)])) =
      loadItems [] (ds.map Item.contact ++
        [Item.coll (cs.map Item.contact ++ Item.other :: rest)]) from rfl,
      loadItems_contacts_then]
    have h2 : extendItem (ds.foldl addContact [])
        (Item.coll (cs.map Item.contact ++ Item.other :: rest)) =
        (cs.foldl addContact (ds.foldl addContact []), false) :=
      addItems_stop_other cs (ds.foldl addContact []) rest
    have step2 : loadItems (ds.foldl addContact [])
        [Item.coll (cs.map Item.contact ++ Item.other :: rest)] =
        match extendItem (ds.foldl addContact [])
            (Item.coll (cs.map Item.contact ++ Item.other :: rest)) with
        | (store2, true) => loadItems store2 []
        | (store2, false) => (store2, true) := rfl
    rw [step2, h2]
    show (cs.foldl addContact (ds.foldl addContact []), true) = _
    rw [List.foldl_append]

/-- In a duplicate-free store, the only element equal (by case-insensitive
name) to a stored contact is that contact itself. -/
theorem pw_unique {l : List Contact} (hpw : PW l) {d c : Contact}
    (hd : d ∈ l) (hc : c ∈ l) (hceq : ceq d c = true) : d = c := by
  induction l with
  | nil => exact absurd hd (List.not_mem_nil d)
  | cons x xs ih =>
    obtain ⟨hx, hxs⟩ := List.pairwise_cons.mp hpw
    rcases List.mem_cons.mp hd with rfl | hd'
    · rcases List.mem_cons.mp hc with rfl | hc'
      · rfl
      · have := hx c hc'
        rw [this] at hceq
        cases hceq
    · rcases List.mem_cons.mp hc with rfl | hc'
      · have h1 := hx d hd'
        rw [ceq_symm] at h1
        rw [h1] at hceq
        cases hceq
      · exact ih hxs hd' hc'

/-- C10: when the persisted blob unpickles to a list of contacts that
contains case-insensitive duplicates, startup loading goes through the
duplicate-suppressing merge, so the resulting store is duplicate-free,
keeps the first contact of each name (with its phone/email), and contains
no other contact of that name. -/
theorem load_dedup_first_wins (pre post : List Contact) (c : Contact)
    (h : memC c pre = false) :
    nodupC (loadContacts (Blob.pyList ((pre ++ c :: post).map Item.contact))).1 = true ∧
    c ∈ (loadContacts (Blob.pyList ((pre ++ c :: post).map Item.contact))).1 ∧
    (∀ d ∈ (loadContacts (Blob.pyList ((pre ++ c :: post).map Item.contact))).1,
      ceq d c = true → d = c) := by
  have hload : loadContacts (Blob.pyList ((pre ++ c :: post).map Item.contact)) =
      ((pre ++ c :: post).foldl addContact [], false) :=
    loadItems_contacts (pre ++ c :: post) []
  rw [hload]
  have hnd : nodupC ((pre ++ c :: post).foldl addContact []) = true :=
    nodupC_foldl_addContact rfl
  have hA : memC c (pre.foldl addContact []) = false := by
    rw [memC_false_iff]
    intro x hx
    rcases mem_foldl_addContact hx with hx' | hx'
    · exact absurd hx' (List.not_mem_nil x)
    · by_contra hxc
      have hxc' : ceq x c = true := by simpa using hxc
      have hmem : memC c pre = true := memC_iff.mpr ⟨x, hx', hxc'⟩
      simp [hmem] at h
  have hmemc : c ∈ (pre ++ c :: post).foldl addContact [] := by
    rw [List.foldl_append, List.foldl_cons]
    apply mem_foldl_addContact_of_mem
    rw [addContact_of_not_mem hA]
    exact List.mem_append_right _ (List.mem_singleton_self c)
  refine ⟨hnd, hmemc, ?_⟩
  intro d hd hdc
  exact pw_unique (nodupC_iff_pw.mp hnd) hd hmemc hdc

/-- Witness for C10: loading `[Bob, Alice, alice]` keeps Bob and the first
Alice; the store ends duplicate-free. -/
theorem load_dedup_first_wins_w :
    alice ∈ (loadContacts (Blob.pyList (([bob] ++ alice :: [alice2]).map
      Item.contact))).1 :=
  (load_dedup_first_wins [bob] [alice2] alice (by decide)).2.1

/-- C6: on a store whose only case-insensitive match for `name` is the
well-formed stored contact `c`, updating with a (truthy) valid new phone
and no email keeps the store size unchanged, reports success, and the
single matching record afterwards carries the original stored name, the
trimmed new phone, and the original email. -/
theorem update_phone_only (s : MState) (name np : String) (c : Contact)
    (hfind : find_by_name s.contacts name = [c])
    (hvalid : Contact.construct c.name c.phone c.email = .ok c)
    (hnp1 : np ≠ "") (hnp2 : pstrip np ≠ "") :
    (update_contact s name (some np) none).1.contacts.length = s.contacts.length ∧
    (update_contact s name (some np) none).2 = Outcome.ok ∧
    find_by_name (update_contact s name (some np) none).1.contacts name =
      [(⟨c.name, pstrip np, c.email⟩ : Contact)] := by
  obtain ⟨hn, hp, he, hcrec⟩ := construct_eq_ok.mp hvalid
  have hname : pstrip c.name = c.name := (congrArg Contact.name hcrec).symm
  have hemail : pstrip c.email = c.email := (congrArg Contact.email hcrec).symm
  have hupd : Contact.construct c.name (optField (some np) c.phone)
      (optField none c.email) = .ok ⟨c.name, pstrip np, c.email⟩ := by
    have e1 : optField (some np) c.phone = pstrip np := by
      simp [optField, hnp1]
    have e2 : optField none c.email = c.email := rfl
    rw [e1, e2]
    apply construct_eq_ok.mpr
    refine ⟨hn, ?_, he, ?_⟩
    · rw [pstrip_idem]
      exact hnp2
    · rw [hname, hemail, pstrip_idem]
  have hfind' : s.contacts.filter (fun x => lower x.name == lower name) = [c] := hfind
  obtain ⟨l₁, l₂, hsplit, h₁, hPc, hfl₂⟩ := List.filter_eq_cons_iff.mp hfind'
  have hlc : lower c.name = lower name := beq_iff_eq.mp hPc
  have hPeq : ∀ x : Contact, ceq x c = (lower x.name == lower name) := by
    intro x
    rw [ceq, hlc]
  have hl₁ : ∀ y ∈ l₁, ceq y c = false := by
    intro y hy
    rw [hPeq y]
    exact Bool.of_not_eq_true (h₁ y hy)
  have hrem : listRemove s.contacts c = some (l₁ ++ l₂) := by
    rw [hsplit]
    exact listRemove_split hl₁ (ceq_refl c)
  have hl₂ : ∀ y ∈ l₂, ceq y c = false := by
    intro y hy
    rw [hPeq y]
    exact Bool.of_not_eq_true (List.filter_eq_nil_iff.mp hfl₂ y hy)
  have hnotmem : memC (⟨c.name, pstrip np, c.email⟩ : Contact) (l₁ ++ l₂) = false := by
    rw [memC_false_iff]
    intro x hx
    have hcx : ceq x (⟨c.name, pstrip np, c.email⟩ : Contact) = ceq x c := rfl
    rw [hcx]
    rcases List.mem_append.mp hx with h' | h'
    · exact hl₁ x h'
    · exact hl₂ x h'
  have hadd : addContact (l₁ ++ l₂) ⟨c.name, pstrip np, c.email⟩ =
      (l₁ ++ l₂) ++ [(⟨c.name, pstrip np, c.email⟩ : Contact)] :=
    addContact_of_not_mem hnotmem
  have hstep : update_contact s name (some np) none =
      (saveState s (sortC ((l₁ ++ l₂) ++ [(⟨c.name, pstrip np, c.email⟩ : Contact)])),
        Outcome.ok) := by
    simp only [update_contact_found hfind, hupd, hrem, hadd]
  have hlen : (sortC ((l₁ ++ l₂) ++ [(⟨c.name, pstrip np, c.email⟩ : Contact)])).length
      = s.contacts.length := by
    rw [(sortC_perm _).length_eq, hsplit]
    simp only [List.length_append, List.length_cons, List.length_nil]
    omega
  have hPupd : (lower (⟨c.name, pstrip np, c.email⟩ : Contact).name == lower name)
      = true := hPc
  have hfilter : find_by_name
      (sortC ((l₁ ++ l₂) ++ [(⟨c.name, pstrip np, c.email⟩ : Contact)])) name
      = [(⟨c.name, pstrip np, c.email⟩ : Contact)] := by
    have hperm := List.Perm.filter (fun x => lower x.name == lower name)
      (sortC_perm ((l₁ ++ l₂) ++ [(⟨c.name, pstrip np, c.email⟩ : Contact)]))
    have hbase : ((l₁ ++ l₂) ++ [(⟨c.name, pstrip np, c.email⟩ : Contact)]).filter
        (fun x => lower x.name == lower name)
        = [(⟨c.name, pstrip np, c.email⟩ : Contact)] := by
      rw [List.filter_append, List.filter_append,
        List.filter_eq_nil_iff.mpr h₁, hfl₂]
      simp [hPupd]
    rw [hbase] at hperm
    exact List.perm_singleton.mp hperm
  refine ⟨?_, ?_, ?_⟩
  · rw [hstep]
    exact hlen
  · rw [hstep]
  · rw [hstep]
    exact hfilter

/-- Witness for C6: updating Alice's phone to "555-3333" with the email
omitted keeps one contact; Alice's record has the new phone and her old
email. -/
theorem update_phone_only_w :
    (update_contact ⟨[alice], serialize [alice], 1⟩ "alice" (some "555-3333")
      none).1.contacts.length = 1 ∧
    find_by_name (update_contact ⟨[alice], serialize [alice], 1⟩ "alice"
      (some "555-3333") none).1.contacts "alice" =
      [(⟨alice.name, pstrip "555-3333", alice.email⟩ : Contact)] := by
  have h := update_phone_only ⟨[alice], serialize [alice], 1⟩ "alice" "555-3333" alice
    rfl rfl (by decide) (by decide)
  exact ⟨h.1, h.2.2⟩

end ContactMgr
